import Mathlib

/-!
Verification of the l10n localization CLI (plan resolution, staleness
tracking, validation engine, translation orchestration) against its
natural-language specification.  The definitions below are shallow
embeddings of the TypeScript sources (`src/plan.ts`, `src/checks.ts`,
`src/agent.ts`, `src/app.ts`, `src/locks.ts`, `src/hash.ts`).
Strings are modelled as `List Char`; the sha256 digest is kept abstract
as a function parameter since only equality of digests matters to the
properties below.
-/

namespace L10n

abbrev Chars := List Char

/-- JavaScript whitespace class (the ASCII part of `\s`, which is also
what `String.prototype.trim` removes). -/
def isWS (c : Char) : Bool :=
  c = ' ' || c = '\t' || c = '\n' || c = '\r' ||
  c = Char.ofNat 11 || c = Char.ofNat 12 || c = Char.ofNat 0xa0 || c = Char.ofNat 0xfeff

/-- Model of `String.prototype.trim` / Go `strings.TrimSpace`. -/
def trimChars (cs : Chars) : Chars :=
  ((cs.dropWhile isWS).reverse.dropWhile isWS).reverse

/-- Substring test: `hay.includes(needle)` of JavaScript. -/
def containsSub (hay needle : Chars) : Bool :=
  match hay with
  | [] => needle.isEmpty
  | _ :: t => needle.isPrefixOf hay || containsSub t needle

/-- `List.splitOn` written out, modelling JavaScript `split(sep)` for a
one-character separator. -/
def splitOnChar (sep : Char) : Chars → List Chars
  | [] => [[]]
  | c :: rest =>
    if c = sep then [] :: splitOnChar sep rest
    else (c :: (splitOnChar sep rest).headD []) :: (splitOnChar sep rest).tail

theorem splitOnChar_ne_nil (sep : Char) (cs : Chars) : splitOnChar sep cs ≠ [] := by
  cases cs with
  | nil => simp [splitOnChar]
  | cons c rest =>
    simp only [splitOnChar]
    split <;> simp

theorem splitOnChar_head (sep : Char) (cs : Chars) :
    (splitOnChar sep cs).headD [] = cs.takeWhile (fun c => !(c = sep : Bool)) := by
  induction cs with
  | nil => simp [splitOnChar]
  | cons c rest ih =>
    by_cases h : c = sep
    · simp [splitOnChar, List.takeWhile, h]
    · simp only [splitOnChar, if_neg h, List.headD_cons, ih, List.takeWhile]
      simp [h]

-- ───────────────────────────── C2: plan winner selection ──────────────

/-- A normalized translation directive (`Entry` of `src/plan.ts`), reduced
to the fields that participate in winner selection plus its payload. -/
structure Entry where
  source : String
  output : String
  originDepth : Nat
  index : Nat
deriving DecidableEq, Repr

/-- `shouldOverride` of `src/plan.ts`: a candidate replaces the existing
winner when it is deeper, or equally deep and declared later. -/
def shouldOverride (existing candidate : Entry) : Bool :=
  if candidate.originDepth > existing.originDepth then true
  else if candidate.originDepth = existing.originDepth ∧ candidate.index > existing.index then true
  else false

/-- The per-path candidate accumulation of `resolveEntries`
(`src/plan.ts`): entries are scanned in declaration order; for one fixed
concrete file, `hits e` abstracts "the entry's glob matches the file
and the file is not excluded, not a directory, and not a descriptor
file".  The first matching entry seeds the candidate; later matching
entries replace it exactly when `shouldOverride` says so. -/
def resolveStep (hits : Entry → Bool) (acc : Option Entry) (e : Entry) : Option Entry :=
  if hits e then
    match acc with
    | none => some e
    | some ex => if shouldOverride ex e then some e else some ex
  else acc

def resolveFor (hits : Entry → Bool) (entries : List Entry) : Option Entry :=
  entries.foldl (resolveStep hits) none

/-- The total order the claim describes: `(originDepth, index)` compared
lexicographically. -/
def pairLe (a b : Entry) : Prop :=
  a.originDepth < b.originDepth ∨ (a.originDepth = b.originDepth ∧ a.index ≤ b.index)

theorem pairLe_total (a b : Entry) : pairLe a b ∨ pairLe b a := by
  rcases Nat.lt_trichotomy a.originDepth b.originDepth with h | h | h
  · exact Or.inl (Or.inl h)
  · rcases Nat.le_total a.index b.index with h2 | h2
    · exact Or.inl (Or.inr ⟨h, h2⟩)
    · exact Or.inr (Or.inr ⟨h.symm, h2⟩)
  · exact Or.inr (Or.inl h)

theorem pairLe_trans {a b c : Entry} (h1 : pairLe a b) (h2 : pairLe b c) : pairLe a c := by
  rcases h1 with h1 | ⟨h1, h1'⟩ <;> rcases h2 with h2 | ⟨h2, h2'⟩
  · exact Or.inl (h1.trans h2)
  · exact Or.inl (h2 ▸ h1)
  · exact Or.inl (h1 ▸ h2)
  · exact Or.inr ⟨h1.trans h2, h1'.trans h2'⟩

theorem shouldOverride_true_iff (ex c : Entry) :
    shouldOverride ex c = true ↔
      (ex.originDepth < c.originDepth ∨ (ex.originDepth = c.originDepth ∧ ex.index < c.index)) := by
  simp only [shouldOverride]
  split
  · next h => simp only [true_iff]; exact Or.inl h
  · next h =>
    split
    · next h2 => simp only [true_iff]; exact Or.inr ⟨h2.1.symm, h2.2⟩
    · next h2 =>
      simp only [Bool.false_eq_true, false_iff]
      push_neg at h h2
      rintro (hlt | ⟨heq, hidx⟩)
      · exact absurd hlt (Nat.not_lt.2 h)
      · exact absurd hidx (Nat.not_lt.2 (h2 heq.symm))

theorem shouldOverride_keep {ex c : Entry} (h : shouldOverride ex c = false) : pairLe c ex := by
  by_contra hc
  rcases pairLe_total ex c with hle | hle
  · rcases hle with hlt | ⟨heq, hidx⟩
    · exact absurd ((shouldOverride_true_iff ex c).2 (Or.inl hlt)) (by simp [h])
    · rcases Nat.lt_or_ge ex.index c.index with hi | hi
      · exact absurd ((shouldOverride_true_iff ex c).2 (Or.inr ⟨heq, hi⟩)) (by simp [h])
      · exact hc (Or.inr ⟨heq.symm, hi⟩)
  · exact hc hle

theorem shouldOverride_take {ex c : Entry} (h : shouldOverride ex c = true) : pairLe ex c := by
  rcases (shouldOverride_true_iff ex c).1 h with hlt | ⟨heq, hidx⟩
  · exact Or.inl hlt
  · exact Or.inr ⟨heq, Nat.le_of_lt hidx⟩

theorem resolveStep_hit_none {hits : Entry → Bool} {e : Entry} (h : hits e = true) :
    resolveStep hits none e = some e := by
  simp [resolveStep, h]

theorem resolveStep_hit_some {hits : Entry → Bool} {e ex : Entry} (h : hits e = true) :
    resolveStep hits (some ex) e = if shouldOverride ex e then some e else some ex := by
  simp [resolveStep, h]

theorem resolveStep_miss {hits : Entry → Bool} {e : Entry} (acc : Option Entry)
    (h : hits e = false) : resolveStep hits acc e = acc := by
  simp [resolveStep, h]

/-- Invariant of the fold in `resolveFor`, stated for an arbitrary
starting accumulator. -/
theorem resolveFor_go (hits : Entry → Bool) (entries : List Entry) :
    ∀ acc : Option Entry, ∀ w,
      entries.foldl (resolveStep hits) acc = some w →
        ((acc = some w ∨ (w ∈ entries ∧ hits w = true)) ∧
          (∀ x, acc = some x → pairLe x w) ∧
          (∀ x ∈ entries, hits x = true → pairLe x w)) := by
  induction entries with
  | nil =>
    intro acc w h
    simp only [List.foldl_nil] at h
    refine ⟨Or.inl h, fun x hx => ?_, by simp⟩
    rw [h] at hx; cases hx; exact Or.inr ⟨rfl, Nat.le_refl _⟩
  | cons e rest ih =>
    intro acc w h
    rw [List.foldl_cons] at h
    by_cases hm : hits e = true
    · cases hacc : acc with
      | none =>
        rw [hacc, resolveStep_hit_none hm] at h
        obtain ⟨h1, h2, h3⟩ := ih (some e) w h
        refine ⟨?_, ?_, ?_⟩
        · rcases h1 with h1 | h1
          · cases h1; exact Or.inr ⟨List.mem_cons_self e rest, hm⟩
          · exact Or.inr ⟨List.mem_cons_of_mem e h1.1, h1.2⟩
        · intro x hx; cases hx
        · intro x hx hmx
          rcases List.mem_cons.1 hx with rfl | hx'
          · exact h2 x rfl
          · exact h3 x hx' hmx
      | some ex =>
        rw [hacc, resolveStep_hit_some hm] at h
        by_cases hso : shouldOverride ex e = true
        · rw [if_pos hso] at h
          obtain ⟨h1, h2, h3⟩ := ih (some e) w h
          refine ⟨?_, ?_, ?_⟩
          · rcases h1 with h1 | h1
            · cases h1; exact Or.inr ⟨List.mem_cons_self e rest, hm⟩
            · exact Or.inr ⟨List.mem_cons_of_mem e h1.1, h1.2⟩
          · intro x hx; cases hx
            exact pairLe_trans (shouldOverride_take hso) (h2 e rfl)
          · intro x hx hmx
            rcases List.mem_cons.1 hx with rfl | hx'
            · exact h2 x rfl
            · exact h3 x hx' hmx
        · rw [if_neg hso] at h
          obtain ⟨h1, h2, h3⟩ := ih (some ex) w h
          refine ⟨?_, ?_, ?_⟩
          · rcases h1 with h1 | h1
            · exact Or.inl (hacc ▸ h1)
            · exact Or.inr ⟨List.mem_cons_of_mem e h1.1, h1.2⟩
          · intro x hx; cases hx; exact h2 ex rfl
          · intro x hx hmx
            rcases List.mem_cons.1 hx with rfl | hx'
            · exact pairLe_trans (shouldOverride_keep (by simpa using hso)) (h2 ex rfl)
            · exact h3 x hx' hmx
    · rw [Bool.not_eq_true] at hm
      rw [resolveStep_miss acc hm] at h
      obtain ⟨h1, h2, h3⟩ := ih acc w h
      refine ⟨?_, h2, ?_⟩
      · rcases h1 with h1 | h1
        · exact Or.inl h1
        · exact Or.inr ⟨List.mem_cons_of_mem e h1.1, h1.2⟩
      · intro x hx hmx
        rcases List.mem_cons.1 hx with rfl | hx'
        · rw [hm] at hmx; cases hmx
        · exact h3 x hx' hmx

/-- Claim C2: for every set of translation directives matching the same
concrete file, `resolveEntries` assigns the file exactly one winning
directive, namely one attaining the greatest (origin depth, declaration
index) pair in the lexicographic order with depth first: a deeper
descriptor always wins, and a depth tie is broken by the later-declared
directive.  Moreover any matching entry whose pair is not below the
winner's has exactly the winner's pair. -/
theorem c2_winner_selection (hits : Entry → Bool) (entries : List Entry) (w : Entry)
    (h : resolveFor hits entries = some w) :
    (w ∈ entries ∧ hits w = true) ∧
      (∀ x ∈ entries, hits x = true → pairLe x w) ∧
      (∀ x ∈ entries, hits x = true → pairLe w x →
        x.originDepth = w.originDepth ∧ x.index = w.index) := by
  obtain ⟨h1, _, h3⟩ := resolveFor_go hits entries none w h
  rcases h1 with h1 | h1
  · cases h1
  refine ⟨h1, h3, fun x hx hmx hwx => ?_⟩
  rcases h3 x hx hmx with hlt | ⟨heq, hle⟩
  · rcases hwx with hlt' | ⟨heq', _⟩
    · exact absurd (hlt.trans hlt') (Nat.lt_irrefl _)
    · exact absurd (heq' ▸ hlt) (Nat.lt_irrefl _)
  · rcases hwx with hlt' | ⟨heq', hle'⟩
    · exact absurd (heq ▸ hlt') (Nat.lt_irrefl _)
    · exact ⟨heq, Nat.le_antisymm hle hle'⟩

/-- Witness for C2: two directives from one descriptor and a deeper
directive all match; the deeper one wins. -/
theorem c2_winner_selection_witness :
    ((⟨"docs/guide.md", "out/deep", 1, 0⟩ : Entry) ∈
        ([⟨"docs/*.md", "out/a", 0, 0⟩, ⟨"docs/*.md", "out/b", 0, 1⟩,
          ⟨"docs/guide.md", "out/deep", 1, 0⟩] : List Entry) ∧
      (fun (_ : Entry) => true) ⟨"docs/guide.md", "out/deep", 1, 0⟩ = true) ∧
      (∀ x ∈ ([⟨"docs/*.md", "out/a", 0, 0⟩, ⟨"docs/*.md", "out/b", 0, 1⟩,
          ⟨"docs/guide.md", "out/deep", 1, 0⟩] : List Entry),
        (fun (_ : Entry) => true) x = true → pairLe x ⟨"docs/guide.md", "out/deep", 1, 0⟩) ∧
      (∀ x ∈ ([⟨"docs/*.md", "out/a", 0, 0⟩, ⟨"docs/*.md", "out/b", 0, 1⟩,
          ⟨"docs/guide.md", "out/deep", 1, 0⟩] : List Entry),
        (fun (_ : Entry) => true) x = true →
          pairLe ⟨"docs/guide.md", "out/deep", 1, 0⟩ x →
          x.originDepth = (⟨"docs/guide.md", "out/deep", 1, 0⟩ : Entry).originDepth ∧
            x.index = (⟨"docs/guide.md", "out/deep", 1, 0⟩ : Entry).index) :=
  c2_winner_selection (fun _ => true)
    [⟨"docs/*.md", "out/a", 0, 0⟩, ⟨"docs/*.md", "out/b", 0, 1⟩,
      ⟨"docs/guide.md", "out/deep", 1, 0⟩]
    ⟨"docs/guide.md", "out/deep", 1, 0⟩ (by rfl)

-- ───────────────────────────── C1: staleness check ────────────────────

/-- `OutputLock` of `src/locks.ts`. -/
structure OutputLock where
  path : String
  hash : String
  context_hash : Option String
  checked_at : String
deriving DecidableEq, Repr

/-- `LockFile` of `src/locks.ts`; `outputs` is the language → output-lock
map, kept as an association list. -/
structure LockFile where
  source_path : String
  source_hash : String
  context_hash : Option String
  outputs : List (String × OutputLock)
  updated_at : String
deriving DecidableEq, Repr

/-- Property lookup `lock.outputs[lang]`. -/
def lookupOutput (outputs : List (String × OutputLock)) (lang : String) : Option OutputLock :=
  (outputs.find? (fun p => p.1 = lang)).map (·.2)

/-- `lockContextHash` of `src/app.ts`: the Output Lock's own context
hash when present and non-empty (JavaScript truthiness), else the
record-wide legacy hash, else the empty string. -/
def lockContextHash (lock : LockFile) (lang : String) : String :=
  match lookupOutput lock.outputs lang with
  | some ol =>
    match ol.context_hash with
    | some h => if h = "" then lock.context_hash.getD "" else h
    | none => lock.context_hash.getD ""
  | none => lock.context_hash.getD ""

/-- The context-bearing part of a `SourcePlan` (`src/plan.ts`). -/
structure SourceCtx where
  contextBodies : List String
  langContextBodies : List (String × List String)
deriving Repr

/-- `contextPartsFor` of `src/plan.ts`: general ancestor bodies followed
by the per-language bodies when an entry for the language exists. -/
def contextPartsFor (src : SourceCtx) (lang : String) : List String :=
  match src.langContextBodies.find? (fun p => p.1 = lang) with
  | some p => src.contextBodies ++ p.2
  | none => src.contextBodies

/-- `hashStrings` of `src/hash.ts`, over an abstract digest `h`: hash of
the double-newline join. -/
def hashStrings (h : String → String) (parts : List String) : String :=
  h (String.intercalate "\n\n" parts)

/-- The lock record `translateCmd` uses when no lock file exists on disk
(`src/app.ts`). -/
def emptyLock (sourcePath : String) : LockFile :=
  { source_path := sourcePath, source_hash := "", context_hash := none,
    outputs := [], updated_at := "" }

/-- The staleness decision of `translateCmd` (`src/app.ts`) for one
(source, language) pair: `h` is the sha256 digest, `sourceText` the
current source bytes, `outputExists` the result of `stat` on the resolved
output path, `lockOnDisk` the parsed lock file if any. -/
def upToDateCode (h : String → String) (sourcePath sourceText : String) (src : SourceCtx)
    (lang outputPath : String) (outputExists : Bool) (lockOnDisk : Option LockFile) : Bool :=
  let lock := lockOnDisk.getD (emptyLock sourcePath)
  let sourceHash := h sourceText
  let contextHash := hashStrings h (contextPartsFor src lang)
  let outputLock := lookupOutput lock.outputs lang
  outputExists && outputLock.isSome &&
    (lock.source_hash = sourceHash : Bool) &&
    ((outputLock.map (·.path)).getD "" = outputPath : Bool) &&
    (lockContextHash lock lang = contextHash : Bool)

/-- The claim's own wording of up-to-dateness: the output file exists, a
lock record exists, its source hash equals the digest of the current
source, it has an Output Lock for the language whose stored path equals
the resolved output path, and the stored context hash (the Output Lock's
own, or the record-wide legacy hash when the Output Lock lacks one — an
empty stored hash counting as lacking) equals the digest of the general
and per-language context parts joined with double newlines. -/
def upToDateSpec (h : String → String) (sourceText : String) (src : SourceCtx)
    (lang outputPath : String) (outputExists : Bool) (lockOnDisk : Option LockFile) : Prop :=
  outputExists = true ∧
    ∃ lock, lockOnDisk = some lock ∧
      lock.source_hash = h sourceText ∧
      ∃ ol, lookupOutput lock.outputs lang = some ol ∧
        ol.path = outputPath ∧
        (match ol.context_hash with
          | some ch => if ch = "" then lock.context_hash.getD "" else ch
          | none => lock.context_hash.getD "") =
          h (String.intercalate "\n\n" (contextPartsFor src lang))

/-- Claim C1: the staleness check of `translateCmd` reports up to date
exactly under the conditions the claim lists; any mismatch, including
absence of the output file, of the lock record, or of the language's
Output Lock, makes the pair stale. -/
theorem c1_staleness_iff (h : String → String) (sourcePath sourceText : String)
    (src : SourceCtx) (lang outputPath : String) (outputExists : Bool)
    (lockOnDisk : Option LockFile) :
    upToDateCode h sourcePath sourceText src lang outputPath outputExists lockOnDisk = true ↔
      upToDateSpec h sourceText src lang outputPath outputExists lockOnDisk := by
  cases lockOnDisk with
  | none =>
    simp only [upToDateCode, upToDateSpec, emptyLock, Option.getD_none, Option.getD_some]
    constructor
    · intro hc
      exfalso
      simp only [lookupOutput, List.find?_nil, Option.map_none, Option.isSome_none,
        Bool.and_false, Bool.false_and, Bool.and_eq_true] at hc
      exact absurd hc.1.1.1.2 (by simp)
    · rintro ⟨-, lock, hlock, -⟩
      cases hlock
  | some lock =>
    cases hfind : lock.outputs.find? (fun p => (p.1 = lang : Bool)) with
    | none =>
      simp only [upToDateCode, upToDateSpec, Option.getD_some, lookupOutput, hfind,
        Option.map_none, Option.isSome_none, Bool.and_false, Bool.false_and]
      constructor
      · intro hc
        simp at hc
      · rintro ⟨-, lock', hlock', -, ol, holock, -⟩
        cases hlock'
        simp only [lookupOutput, hfind, Option.map_none] at holock
        cases holock
    | some p =>
      obtain ⟨l0, ol⟩ := p
      have hol : lookupOutput lock.outputs lang = some ol := by
        simp [lookupOutput, hfind]
      constructor
      · intro hc
        simp only [upToDateCode, Option.getD_some, hol, Bool.and_eq_true,
          decide_eq_true_eq] at hc
        obtain ⟨⟨⟨⟨hex, -⟩, hsrc⟩, hpath⟩, hctx⟩ := hc
        refine ⟨hex, lock, rfl, hsrc, ol, hol, ?_, ?_⟩
        · simpa using hpath
        · simpa [lockContextHash, hol, hashStrings] using hctx
      · rintro ⟨hex, lock', hlock', hsrc, ol', holock, hpath, hctx⟩
        cases hlock'
        rw [hol] at holock
        cases holock
        simp only [upToDateCode, Option.getD_some, hol, Bool.and_eq_true,
          decide_eq_true_eq]
        refine ⟨⟨⟨⟨hex, by simp⟩, hsrc⟩, by simpa using hpath⟩, ?_⟩
        simpa [lockContextHash, hol, hashStrings] using hctx

-- ───────────────────────────── C3: lock persistence ──────────────────

/-- One entry of `SourcePlan.outputs` (`src/plan.ts`). -/
structure OutputPlan where
  lang : String
  outputPath : String
deriving DecidableEq, Repr

/-- Assignment `lock.outputs[lang] = ol` on the association list: replace
the binding in place when the key exists, append otherwise (JavaScript
object-property assignment). -/
def setOutput : List (String × OutputLock) → String → OutputLock → List (String × OutputLock)
  | [], lang, ol => [(lang, ol)]
  | p :: rest, lang, ol =>
    if p.1 = lang then (lang, ol) :: rest else p :: setOutput rest lang ol

/-- Observable outcome of processing one source in `translateCmd`:
which output files were written, whether (and with what content) the lock
record reached `writeLock`, and the first surfaced failure. -/
structure RunResult where
  written : List (String × String)
  persisted : Option LockFile
  failure : Option String
deriving DecidableEq, Repr

/-- The per-source inner loop of `translateCmd` (`src/app.ts`,
lines 107–171), for a non-dry run: `toTranslate` is the stale-pair map,
`result lang` the outcome of `translate` for that language (translation
text or the surfaced error), `h` the sha256 digest, `ctxHash lang` the
pair's context hash, `now` the completion timestamp.  A failure of
`translate` propagates as an exception: the loop stops and `writeLock`
(which runs only after the whole loop) is never reached. -/
def processOutputs (h : String → String) (srcHash : String) (ctxHash : String → String)
    (now : String) (toTranslate : String → Bool) (result : String → Except String String) :
    List OutputPlan → LockFile → List (String × String) → Bool → RunResult
  | [], lock, written, updated =>
    { written := written, persisted := if updated then some lock else none, failure := none }
  | o :: rest, lock, written, updated =>
    if toTranslate o.lang then
      match result o.lang with
      | Except.error e => { written := written, persisted := none, failure := some e }
      | Except.ok t =>
        processOutputs h srcHash ctxHash now toTranslate result rest
          { lock with
            source_hash := srcHash,
            outputs := setOutput lock.outputs o.lang
              { path := o.outputPath, hash := h t,
                context_hash := some (ctxHash o.lang), checked_at := now } }
          (written ++ [(o.outputPath, t)]) true
    else processOutputs h srcHash ctxHash now toTranslate result rest lock written updated

/-- Processing one source starts with nothing written and the lock not
yet updated. -/
def processSource (h : String → String) (srcHash : String) (ctxHash : String → String)
    (now : String) (toTranslate : String → Bool) (result : String → Except String String)
    (outs : List OutputPlan) (lock0 : LockFile) : RunResult :=
  processOutputs h srcHash ctxHash now toTranslate result outs lock0 [] false

/-- The in-memory lock record accumulated over a list of outputs when
every processed language succeeds. -/
def finalLock (h : String → String) (srcHash : String) (ctxHash : String → String)
    (now : String) (toTranslate : String → Bool) (result : String → Except String String)
    (outs : List OutputPlan) (lock0 : LockFile) : LockFile :=
  outs.foldl
    (fun lk o =>
      if toTranslate o.lang then
        match result o.lang with
        | Except.ok t =>
          { lk with
            source_hash := srcHash,
            outputs := setOutput lk.outputs o.lang
              { path := o.outputPath, hash := h t,
                context_hash := some (ctxHash o.lang), checked_at := now } }
        | Except.error _ => lk
      else lk)
    lock0

/-- The output files a fully successful pass writes, in order. -/
def okWrites (toTranslate : String → Bool) (result : String → Except String String)
    (outs : List OutputPlan) : List (String × String) :=
  outs.filterMap
    (fun o =>
      if toTranslate o.lang then
        match result o.lang with
        | Except.ok t => some (o.outputPath, t)
        | Except.error _ => none
      else none)

theorem lookupOutput_setOutput_self (outputs : List (String × OutputLock)) (lang : String)
    (ol : OutputLock) : lookupOutput (setOutput outputs lang ol) lang = some ol := by
  induction outputs with
  | nil => simp [setOutput, lookupOutput]
  | cons p rest ih =>
    by_cases hp : p.1 = lang
    · simp [setOutput, hp, lookupOutput]
    · simp only [setOutput, if_neg hp]
      simpa [lookupOutput, List.find?_cons, hp] using ih

theorem lookupOutput_setOutput_other (outputs : List (String × OutputLock))
    (lang lang' : String) (ol : OutputLock) (hne : lang ≠ lang') :
    lookupOutput (setOutput outputs lang ol) lang' = lookupOutput outputs lang' := by
  induction outputs with
  | nil => simp [setOutput, lookupOutput, hne]
  | cons p rest ih =>
    by_cases hp : p.1 = lang
    · rw [setOutput, if_pos hp]
      simp [lookupOutput, List.find?_cons, hne, hp]
    · rw [setOutput, if_neg hp]
      by_cases hp' : p.1 = lang'
      · simp [lookupOutput, List.find?_cons, hp']
      · simpa [lookupOutput, List.find?_cons, hp'] using ih

theorem processOutputs_cons_ok (h : String → String) (srcHash : String)
    (ctxHash : String → String) (now : String) (toTranslate : String → Bool)
    (result : String → Except String String) (o : OutputPlan) (rest : List OutputPlan)
    (lock : LockFile) (written : List (String × String)) (updated : Bool) (t : String)
    (hto : toTranslate o.lang = true) (ht : result o.lang = Except.ok t) :
    processOutputs h srcHash ctxHash now toTranslate result (o :: rest) lock written updated =
      processOutputs h srcHash ctxHash now toTranslate result rest
        { lock with
          source_hash := srcHash,
          outputs := setOutput lock.outputs o.lang
            { path := o.outputPath, hash := h t,
              context_hash := some (ctxHash o.lang), checked_at := now } }
        (written ++ [(o.outputPath, t)]) true := by
  simp [processOutputs, hto, ht]

theorem processOutputs_cons_err (h : String → String) (srcHash : String)
    (ctxHash : String → String) (now : String) (toTranslate : String → Bool)
    (result : String → Except String String) (o : OutputPlan) (rest : List OutputPlan)
    (lock : LockFile) (written : List (String × String)) (updated : Bool) (e : String)
    (hto : toTranslate o.lang = true) (ht : result o.lang = Except.error e) :
    processOutputs h srcHash ctxHash now toTranslate result (o :: rest) lock written updated =
      { written := written, persisted := none, failure := some e } := by
  simp [processOutputs, hto, ht]

theorem processOutputs_cons_skip (h : String → String) (srcHash : String)
    (ctxHash : String → String) (now : String) (toTranslate : String → Bool)
    (result : String → Except String String) (o : OutputPlan) (rest : List OutputPlan)
    (lock : LockFile) (written : List (String × String)) (updated : Bool)
    (hto : toTranslate o.lang = false) :
    processOutputs h srcHash ctxHash now toTranslate result (o :: rest) lock written updated =
      processOutputs h srcHash ctxHash now toTranslate result rest lock written updated := by
  simp [processOutputs, hto]

theorem finalLock_cons_ok (h : String → String) (srcHash : String)
    (ctxHash : String → String) (now : String) (toTranslate : String → Bool)
    (result : String → Except String String) (o : OutputPlan) (rest : List OutputPlan)
    (lk : LockFile) (t : String)
    (hto : toTranslate o.lang = true) (ht : result o.lang = Except.ok t) :
    finalLock h srcHash ctxHash now toTranslate result (o :: rest) lk =
      finalLock h srcHash ctxHash now toTranslate result rest
        { lk with
          source_hash := srcHash,
          outputs := setOutput lk.outputs o.lang
            { path := o.outputPath, hash := h t,
              context_hash := some (ctxHash o.lang), checked_at := now } } := by
  simp [finalLock, hto, ht]

theorem finalLock_cons_err (h : String → String) (srcHash : String)
    (ctxHash : String → String) (now : String) (toTranslate : String → Bool)
    (result : String → Except String String) (o : OutputPlan) (rest : List OutputPlan)
    (lk : LockFile) (e : String)
    (hto : toTranslate o.lang = true) (ht : result o.lang = Except.error e) :
    finalLock h srcHash ctxHash now toTranslate result (o :: rest) lk =
      finalLock h srcHash ctxHash now toTranslate result rest lk := by
  simp [finalLock, hto, ht]

theorem finalLock_cons_skip (h : String → String) (srcHash : String)
    (ctxHash : String → String) (now : String) (toTranslate : String → Bool)
    (result : String → Except String String) (o : OutputPlan) (rest : List OutputPlan)
    (lk : LockFile) (hto : toTranslate o.lang = false) :
    finalLock h srcHash ctxHash now toTranslate result (o :: rest) lk =
      finalLock h srcHash ctxHash now toTranslate result rest lk := by
  simp [finalLock, hto]

/-- All-success characterization of `processOutputs`, for an arbitrary
accumulator. -/
theorem processOutputs_allOk (h : String → String) (srcHash : String)
    (ctxHash : String → String) (now : String) (toTranslate : String → Bool)
    (result : String → Except String String) :
    ∀ (outs : List OutputPlan) (lock : LockFile) (written : List (String × String))
      (updated : Bool),
      (∀ o ∈ outs, toTranslate o.lang = true → ∃ t, result o.lang = Except.ok t) →
      processOutputs h srcHash ctxHash now toTranslate result outs lock written updated =
        { written := written ++ okWrites toTranslate result outs,
          persisted :=
            if updated || outs.any (fun o => toTranslate o.lang)
            then some (finalLock h srcHash ctxHash now toTranslate result outs lock)
            else none,
          failure := none } := by
  intro outs
  induction outs with
  | nil => intro lock written updated hok; simp [processOutputs, okWrites, finalLock]
  | cons o rest ih =>
    intro lock written updated hok
    by_cases hto : toTranslate o.lang = true
    · obtain ⟨t, ht⟩ := hok o (List.mem_cons_self o rest) hto
      rw [processOutputs_cons_ok h srcHash ctxHash now toTranslate result o rest lock written
          updated t hto ht,
        ih _ _ _ (fun o' ho' => hok o' (List.mem_cons_of_mem o ho')),
        finalLock_cons_ok h srcHash ctxHash now toTranslate result o rest lock t hto ht]
      simp [okWrites, hto, ht]
    · rw [Bool.not_eq_true] at hto
      rw [processOutputs_cons_skip h srcHash ctxHash now toTranslate result o rest lock written
          updated hto,
        ih _ _ _ (fun o' ho' => hok o' (List.mem_cons_of_mem o ho')),
        finalLock_cons_skip h srcHash ctxHash now toTranslate result o rest lock hto]
      simp [okWrites, hto]

/-- Any failing translated language prevents persistence, regardless of
what succeeded before. -/
theorem processOutputs_failure (h : String → String) (srcHash : String)
    (ctxHash : String → String) (now : String) (toTranslate : String → Bool)
    (result : String → Except String String) :
    ∀ (outs : List OutputPlan) (lock : LockFile) (written : List (String × String))
      (updated : Bool),
      (∃ o ∈ outs, toTranslate o.lang = true ∧ ∃ e, result o.lang = Except.error e) →
      (processOutputs h srcHash ctxHash now toTranslate result outs lock written updated).persisted
        = none := by
  intro outs
  induction outs with
  | nil => rintro lock written updated ⟨o, ho, -⟩; cases ho
  | cons o rest ih =>
    rintro lock written updated ⟨o', ho', hto', e, he'⟩
    rcases List.mem_cons.1 ho' with rfl | hmem
    · rw [processOutputs_cons_err h srcHash ctxHash now toTranslate result o' rest lock written
        updated e hto' he']
    · by_cases hto : toTranslate o.lang = true
      · cases hres : result o.lang with
        | error e2 =>
          rw [processOutputs_cons_err h srcHash ctxHash now toTranslate result o rest lock written
            updated e2 hto hres]
        | ok t =>
          rw [processOutputs_cons_ok h srcHash ctxHash now toTranslate result o rest lock written
            updated t hto hres]
          exact ih _ _ _ ⟨o', hmem, hto', e, he'⟩
      · rw [Bool.not_eq_true] at hto
        rw [processOutputs_cons_skip h srcHash ctxHash now toTranslate result o rest lock written
          updated hto]
        exact ih _ _ _ ⟨o', hmem, hto', e, he'⟩

theorem finalLock_lookup_untouched (h : String → String) (srcHash : String)
    (ctxHash : String → String) (now : String) (toTranslate : String → Bool)
    (result : String → Except String String) :
    ∀ (outs : List OutputPlan) (lk : LockFile) (lang : String),
      (∀ o ∈ outs, o.lang ≠ lang) →
      lookupOutput (finalLock h srcHash ctxHash now toTranslate result outs lk).outputs lang =
        lookupOutput lk.outputs lang := by
  intro outs
  induction outs with
  | nil => intro lk lang _; simp [finalLock]
  | cons o rest ih =>
    intro lk lang hne
    by_cases hto : toTranslate o.lang = true
    · cases hres : result o.lang with
      | error e =>
        rw [finalLock_cons_err h srcHash ctxHash now toTranslate result o rest lk e hto hres]
        exact ih _ _ (fun o' ho' => hne o' (List.mem_cons_of_mem o ho'))
      | ok t =>
        rw [finalLock_cons_ok h srcHash ctxHash now toTranslate result o rest lk t hto hres,
          ih _ _ (fun o' ho' => hne o' (List.mem_cons_of_mem o ho'))]
        exact lookupOutput_setOutput_other _ _ _ _ (hne o (List.mem_cons_self o rest))
    · rw [Bool.not_eq_true] at hto
      rw [finalLock_cons_skip h srcHash ctxHash now toTranslate result o rest lk hto]
      exact ih _ _ (fun o' ho' => hne o' (List.mem_cons_of_mem o ho'))

theorem finalLock_lookup (h : String → String) (srcHash : String)
    (ctxHash : String → String) (now : String) (toTranslate : String → Bool)
    (result : String → Except String String) :
    ∀ (outs : List OutputPlan) (lk : LockFile),
      (outs.map (fun o => o.lang)).Nodup →
      ∀ o ∈ outs, toTranslate o.lang = true → ∀ t, result o.lang = Except.ok t →
        lookupOutput
            (finalLock h srcHash ctxHash now toTranslate result outs lk).outputs o.lang =
          some { path := o.outputPath, hash := h t,
                 context_hash := some (ctxHash o.lang), checked_at := now } := by
  intro outs
  induction outs with
  | nil => intro lk _ o ho; cases ho
  | cons o0 rest ih =>
    intro lk hnd o ho hto t hres
    rw [List.map_cons, List.nodup_cons] at hnd
    rcases List.mem_cons.1 ho with rfl | hmem
    · rw [finalLock_cons_ok h srcHash ctxHash now toTranslate result o rest lk t hto hres,
        finalLock_lookup_untouched h srcHash ctxHash now toTranslate result rest _ o.lang
          (fun o' ho' hcontra => hnd.1 (hcontra ▸ List.mem_map_of_mem (fun x => x.lang) ho'))]
      exact lookupOutput_setOutput_self _ _ _
    · by_cases hto0 : toTranslate o0.lang = true
      · cases hres0 : result o0.lang with
        | error e =>
          rw [finalLock_cons_err h srcHash ctxHash now toTranslate result o0 rest lk e hto0 hres0]
          exact ih _ hnd.2 o hmem hto t hres
        | ok t0 =>
          rw [finalLock_cons_ok h srcHash ctxHash now toTranslate result o0 rest lk t0 hto0 hres0]
          exact ih _ hnd.2 o hmem hto t hres
      · rw [Bool.not_eq_true] at hto0
        rw [finalLock_cons_skip h srcHash ctxHash now toTranslate result o0 rest lk hto0]
        exact ih _ hnd.2 o hmem hto t hres

theorem finalLock_source_hash (h : String → String) (srcHash : String)
    (ctxHash : String → String) (now : String) (toTranslate : String → Bool)
    (result : String → Except String String) :
    ∀ (outs : List OutputPlan) (lk : LockFile),
      (finalLock h srcHash ctxHash now toTranslate result outs lk).source_hash =
          lk.source_hash ∨
        (finalLock h srcHash ctxHash now toTranslate result outs lk).source_hash = srcHash := by
  intro outs
  induction outs with
  | nil => intro lk; exact Or.inl rfl
  | cons o rest ih =>
    intro lk
    by_cases hto : toTranslate o.lang = true
    · cases hres : result o.lang with
      | error e =>
        rw [finalLock_cons_err h srcHash ctxHash now toTranslate result o rest lk e hto hres]
        exact ih _
      | ok t =>
        rw [finalLock_cons_ok h srcHash ctxHash now toTranslate result o rest lk t hto hres]
        rcases ih ({ lk with
            source_hash := srcHash,
            outputs := setOutput lk.outputs o.lang
              { path := o.outputPath, hash := h t,
                context_hash := some (ctxHash o.lang), checked_at := now } }) with h1 | h1
        · exact Or.inr h1
        · exact Or.inr h1
    · rw [Bool.not_eq_true] at hto
      rw [finalLock_cons_skip h srcHash ctxHash now toTranslate result o rest lk hto]
      exact ih _

theorem finalLock_source_hash_of_ok (h : String → String) (srcHash : String)
    (ctxHash : String → String) (now : String) (toTranslate : String → Bool)
    (result : String → Except String String) :
    ∀ (outs : List OutputPlan) (lk : LockFile),
      (∃ o ∈ outs, toTranslate o.lang = true ∧ ∃ t, result o.lang = Except.ok t) →
      (finalLock h srcHash ctxHash now toTranslate result outs lk).source_hash = srcHash := by
  intro outs
  induction outs with
  | nil => rintro lk ⟨o, ho, -⟩; cases ho
  | cons o0 rest ih =>
    rintro lk ⟨o, ho, hto, t, hres⟩
    rcases List.mem_cons.1 ho with rfl | hmem
    · rw [finalLock_cons_ok h srcHash ctxHash now toTranslate result o rest lk t hto hres]
      rcases finalLock_source_hash h srcHash ctxHash now toTranslate result rest _ with h1 | h1
      · exact h1
      · exact h1
    · by_cases hto0 : toTranslate o0.lang = true
      · cases hres0 : result o0.lang with
        | error e =>
          rw [finalLock_cons_err h srcHash ctxHash now toTranslate result o0 rest lk e hto0 hres0]
          exact ih _ ⟨o, hmem, hto, t, hres⟩
        | ok t0 =>
          rw [finalLock_cons_ok h srcHash ctxHash now toTranslate result o0 rest lk t0 hto0 hres0]
          rcases finalLock_source_hash h srcHash ctxHash now toTranslate result rest _ with h1 | h1
          · exact h1
          · exact h1
      · rw [Bool.not_eq_true] at hto0
        rw [finalLock_cons_skip h srcHash ctxHash now toTranslate result o0 rest lk hto0]
        exact ih _ ⟨o, hmem, hto, t, hres⟩

/-- Claim C3 counterexample: in one run, language "es" of a source
translates and validates successfully (its output file is written), then
sibling language "de" fails validation; `translateCmd` throws before ever
reaching `writeLock`, so nothing is persisted — the successful
language's lock entry does not survive the sibling failure. -/
theorem c3_counterexample :
    processSource (fun s => String.append "#" s) "srchash" (fun _ => "ctx") "t0"
        (fun _ => true)
        (fun lang => if lang = "es" then Except.ok "hola"
          else Except.error "preserve-check tool failed")
        [⟨"es", "out/es/guide.md"⟩, ⟨"de", "out/de/guide.md"⟩]
        (emptyLock "docs/guide.md") =
      { written := [("out/es/guide.md", "hola")],
        persisted := none,
        failure := some "preserve-check tool failed" } := rfl

/-- Claim C3 as amended: within one run, a successful language's output
file is written and its Output Lock (path, output-text hash, context
hash, completion time) together with the record's source hash are
updated in memory, but the record reaches `writeLock` only after every
translated language of that source has succeeded; if any translated
sibling fails, the run aborts before persisting, so the successful
language's lock entry is not written to disk (only its output file is).
When all translated languages succeed, the persisted record carries the
new source hash and each translated language's fresh Output Lock. -/
theorem c3_lock_persistence (h : String → String) (srcHash : String)
    (ctxHash : String → String) (now : String) (toTranslate : String → Bool)
    (result : String → Except String String) (outs : List OutputPlan) (lock0 : LockFile)
    (hnd : (outs.map (fun o => o.lang)).Nodup) :
    ((∀ o ∈ outs, toTranslate o.lang = true → ∃ t, result o.lang = Except.ok t) →
      processSource h srcHash ctxHash now toTranslate result outs lock0 =
        { written := okWrites toTranslate result outs,
          persisted :=
            if outs.any (fun o => toTranslate o.lang)
            then some (finalLock h srcHash ctxHash now toTranslate result outs lock0)
            else none,
          failure := none } ∧
      (∀ o ∈ outs, toTranslate o.lang = true → ∀ t, result o.lang = Except.ok t →
        lookupOutput
            (finalLock h srcHash ctxHash now toTranslate result outs lock0).outputs o.lang =
          some { path := o.outputPath, hash := h t, context_hash := some (ctxHash o.lang),
                 checked_at := now }) ∧
      ((∃ o ∈ outs, toTranslate o.lang = true) →
        (finalLock h srcHash ctxHash now toTranslate result outs lock0).source_hash = srcHash)) ∧
    ((∃ o ∈ outs, toTranslate o.lang = true ∧ ∃ e, result o.lang = Except.error e) →
      (processSource h srcHash ctxHash now toTranslate result outs lock0).persisted = none) := by
  constructor
  · intro hok
    refine ⟨?_, ?_, ?_⟩
    · rw [processSource, processOutputs_allOk h srcHash ctxHash now toTranslate result
        outs lock0 [] false hok]
      simp
    · intro o ho hto t ht
      exact finalLock_lookup h srcHash ctxHash now toTranslate result outs lock0 hnd o ho hto t ht
    · rintro ⟨o, ho, hto⟩
      obtain ⟨t, ht⟩ := hok o ho hto
      exact finalLock_source_hash_of_ok h srcHash ctxHash now toTranslate result outs lock0
        ⟨o, ho, hto, t, ht⟩
  · intro hex
    rw [processSource]
    exact processOutputs_failure h srcHash ctxHash now toTranslate result outs lock0 [] false hex

/-- Witness for C3: a fully successful two-language run persists a
record carrying both Output Locks and the new source hash. -/
theorem c3_lock_persistence_witness :
    processSource (fun s => String.append s "!") "sh" (fun _ => "ch") "t0" (fun _ => true)
        (fun _ => Except.ok "T") [⟨"es", "o/es.md"⟩, ⟨"de", "o/de.md"⟩]
        (emptyLock "g.md") =
      { written := [("o/es.md", "T"), ("o/de.md", "T")],
        persisted := some
          { source_path := "g.md", source_hash := "sh", context_hash := none,
            outputs := [("es", ⟨"o/es.md", "T!", some "ch", "t0"⟩),
                        ("de", ⟨"o/de.md", "T!", some "ch", "t0"⟩)],
            updated_at := "" },
        failure := none } := by
  have hmain := (c3_lock_persistence (fun s => String.append s "!") "sh" (fun _ => "ch") "t0"
    (fun _ => true) (fun _ => Except.ok "T") [⟨"es", "o/es.md"⟩, ⟨"de", "o/de.md"⟩]
    (emptyLock "g.md") (by decide)).1 (fun o ho hto => ⟨"T", rfl⟩)
  rw [hmain.1]
  rfl

-- ───────────────────────────── C4: missing translator model ──────────

/-- `translateOnce` of `src/agent.ts`, abstracted over the generation
backend: an empty (or whitespace-only) translator model raises
"translator model is required" before any backend request; otherwise the
attempt's outcome is the backend's. -/
def translateOnceModel (translatorModel : String) (backend : Nat → Except String String)
    (attempt : Nat) : Except String String :=
  if trimChars translatorModel.data = [] then Except.error "translator model is required"
  else backend attempt

/-- The retry loop of `translate` (`src/agent.ts`): each iteration calls
`translateOnce`; a thrown error is recorded and the loop continues; a
produced translation goes through validation (`validateF`, the
post-process-and-validate oracle; `none` means valid); on exhaustion the
last error is surfaced.  The first component counts loop iterations
actually run. -/
def translateGo (translatorModel : String) (backend : Nat → Except String String)
    (validateF : String → Option String) : Nat → Nat → Nat × Except String String
  | attempt, 0 =>
    match translateOnceModel translatorModel backend attempt with
    | Except.error e => (1, Except.error e)
    | Except.ok t =>
      match validateF t with
      | none => (1, Except.ok t)
      | some msg => (1, Except.error msg)
  | attempt, r + 1 =>
    match translateOnceModel translatorModel backend attempt with
    | Except.error _ =>
      ((translateGo translatorModel backend validateF (attempt + 1) r).1 + 1,
        (translateGo translatorModel backend validateF (attempt + 1) r).2)
    | Except.ok t =>
      match validateF t with
      | none => (1, Except.ok t)
      | some _ =>
        ((translateGo translatorModel backend validateF (attempt + 1) r).1 + 1,
          (translateGo translatorModel backend validateF (attempt + 1) r).2)

/-- `translate` of `src/agent.ts` for a pair: `retries` extra attempts
after the first (already clamped non-negative by `translateCmd`). -/
def translateModel (translatorModel : String) (backend : Nat → Except String String)
    (validateF : String → Option String) (retries : Nat) : Nat × Except String String :=
  translateGo translatorModel backend validateF 0 retries

theorem translateGo_missing_model (translatorModel : String)
    (backend : Nat → Except String String) (validateF : String → Option String)
    (htm : trimChars translatorModel.data = []) :
    ∀ (r attempt : Nat),
      translateGo translatorModel backend validateF attempt r =
        (r + 1, Except.error "translator model is required") := by
  intro r
  induction r with
  | zero => intro attempt; simp [translateGo, translateOnceModel, htm]
  | succ r ih =>
    intro attempt
    simp [translateGo, translateOnceModel, htm, ih (attempt + 1)]

/-- Claim C4 counterexample: with an empty translator model and two
retries, the loop runs three attempt iterations (not zero) before the
"translator model is required" error is surfaced — the failure is
retried, not an immediate abort. -/
theorem c4_counterexample :
    (translateModel "" (fun _ => Except.ok "x") (fun _ => none) 2).1 = 3 ∧
      (translateModel "" (fun _ => Except.ok "x") (fun _ => none) 2).1 ≠ 0 ∧
      (translateModel "" (fun _ => Except.ok "x") (fun _ => none) 2).2 =
        Except.error "translator model is required" := by
  refine ⟨rfl, ?_, rfl⟩
  intro hc
  simp only [translateModel] at hc
  rw [translateGo_missing_model "" (fun _ => Except.ok "x") (fun _ => none) rfl 2 0] at hc
  cases hc

/-- Claim C4 as amended: a missing (empty or whitespace-only after
trimming) translator model makes every attempt fail immediately — no
backend request is issued, since `translateOnce` raises before calling
the client — but the error is caught by the retry loop like any other
attempt failure: all `retries + 1` iterations run and the same
"translator model is required" error is surfaced at exhaustion. -/
theorem c4_missing_model_retries (translatorModel : String)
    (backend : Nat → Except String String) (validateF : String → Option String)
    (retries : Nat) (htm : trimChars translatorModel.data = []) :
    translateModel translatorModel backend validateF retries =
      (retries + 1, Except.error "translator model is required") := by
  rw [translateModel]
  exact translateGo_missing_model translatorModel backend validateF htm retries 0

/-- Witness for C4: a whitespace-only model with one retry runs two
iterations and surfaces the missing-model error. -/
theorem c4_missing_model_retries_witness :
    translateModel "  " (fun _ => Except.ok "y") (fun _ => none) 1 =
      (2, Except.error "translator model is required") :=
  c4_missing_model_retries "  " (fun _ => Except.ok "y") (fun _ => none) 1 (by decide)

-- ──────────────────── C5/C6/C8: preserve validation ──────────────────

/-- The backtick character. -/
def btick : Char := Char.ofNat 96

/-- The backslash character. -/
def bslash : Char := Char.ofNat 92

/-- The double-quote character. -/
def dquote : Char := Char.ofNat 34

/-- The single-quote character. -/
def squote : Char := Char.ofNat 39

/-- The opening curly brace. -/
def lcub : Char := Char.ofNat 123

/-- The closing curly brace. -/
def rcub : Char := Char.ofNat 125

/-- The fenced-code marker, three backticks. -/
def fence : Chars := [btick, btick, btick]

/-- Split at the first occurrence of the fence marker: returns the text
before it and the text after it, or `none` when no fence occurs. -/
def splitAtFence : Chars → Option (Chars × Chars)
  | [] => none
  | c :: rest =>
    if fence.isPrefixOf (c :: rest) then some ([], (c :: rest).drop 3)
    else
      match splitAtFence rest with
      | some p => some (c :: p.1, p.2)
      | none => none

/-- The global matches of `codeBlockRe` (lazy fenced-block regex of
`src/checks.ts`) together with the text left after removing them
(`text.replace(codeBlockRe, "")`).  `fuel` bounds the recursion; callers
pass the text length plus one, which the scan can never exhaust. -/
def codeBlockScan : Nat → Chars → List Chars × Chars
  | 0, cs => ([], cs)
  | fuel + 1, cs =>
    match splitAtFence cs with
    | none => ([], cs)
    | some po =>
      match splitAtFence po.2 with
      | none => ([], cs)
      | some pc =>
        let res := codeBlockScan fuel pc.2
        ((fence ++ pc.1 ++ fence) :: res.1, po.1 ++ res.2)

/-- The global matches of `inlineCodeRe` — a backtick, one or more
characters that are neither backtick nor newline, and a closing
backtick. -/
def inlineCodeScan : Nat → Chars → List Chars
  | 0, _ => []
  | _ + 1, [] => []
  | fuel + 1, c :: rest =>
    if c = btick then
      match rest.drop (rest.takeWhile (fun d => !(d = btick || d = '\n'))).length,
        rest.takeWhile (fun d => !(d = btick || d = '\n')) with
      | d :: tail, r0 :: run =>
        if d = btick then (btick :: (r0 :: run) ++ [btick]) :: inlineCodeScan fuel tail
        else inlineCodeScan fuel rest
      | _, _ => inlineCodeScan fuel rest
    else inlineCodeScan fuel rest

/-- A character that ends a URL token in `urlRe`: whitespace, `)`, the
two quote characters, `<` or `>`. -/
def urlStopChar (c : Char) : Bool :=
  isWS c || c = ')' || c = dquote || c = squote || c = '<' || c = '>'

/-- The global matches of `urlRe` — `http://` or `https://` followed by
one or more non-stop characters. -/
def urlScan : Nat → Chars → List Chars
  | 0, _ => []
  | _ + 1, [] => []
  | fuel + 1, c :: rest =>
    if "https://".data.isPrefixOf (c :: rest) then
      match ((c :: rest).drop 8).takeWhile (fun d => !(urlStopChar d)) with
      | [] => urlScan fuel rest
      | r0 :: run =>
        ("https://".data ++ r0 :: run) ::
          urlScan fuel (((c :: rest).drop 8).drop (r0 :: run).length)
    else if "http://".data.isPrefixOf (c :: rest) then
      match ((c :: rest).drop 7).takeWhile (fun d => !(urlStopChar d)) with
      | [] => urlScan fuel rest
      | r0 :: run =>
        ("http://".data ++ r0 :: run) ::
          urlScan fuel (((c :: rest).drop 7).drop (r0 :: run).length)
    else urlScan fuel rest

/-- A character that ends a placeholder token in `placeholderRe`:
whitespace or either curly brace. -/
def phStopChar (c : Char) : Bool :=
  isWS c || c = lcub || c = rcub

/-- The global matches of `placeholderRe` — an opening brace, one or
more non-stop characters, and a closing brace. -/
def placeholderScan : Nat → Chars → List Chars
  | 0, _ => []
  | _ + 1, [] => []
  | fuel + 1, c :: rest =>
    if c = lcub then
      match rest.drop (rest.takeWhile (fun d => !(phStopChar d))).length,
        rest.takeWhile (fun d => !(phStopChar d)) with
      | d :: tail, r0 :: run =>
        if d = rcub then (lcub :: (r0 :: run) ++ [rcub]) :: placeholderScan fuel tail
        else placeholderScan fuel rest
      | _, _ => placeholderScan fuel rest
    else placeholderScan fuel rest

/-- Push tokens not seen before, in order (the `seen` set of
`extractPreservables`). -/
def pushNew (acc : List Chars) (ts : List Chars) : List Chars :=
  ts.foldl (fun a t => if a.contains t then a else a ++ [t]) acc

/-- The four default preserve categories (`DEFAULT_PRESERVE` of
`src/checks.ts`). -/
def DEFAULT_PRESERVE : List Chars :=
  ["code_blocks".data, "inline_code".data, "urls".data, "placeholders".data]

/-- `extractPreservables` of `src/checks.ts`: fenced code first (then
removed from the working text), then inline code, URLs and placeholders
on the remaining text, all deduplicated by first occurrence. -/
def extractPreservables (source : Chars) (kinds : List Chars) : List Chars :=
  let cb :=
    if kinds.contains "code_blocks".data then codeBlockScan (source.length + 1) source
    else ([], source)
  let toks1 := pushNew [] cb.1
  let toks2 :=
    if kinds.contains "inline_code".data then pushNew toks1 (inlineCodeScan (cb.2.length + 1) cb.2)
    else toks1
  let toks3 :=
    if kinds.contains "urls".data then pushNew toks2 (urlScan (cb.2.length + 1) cb.2)
    else toks2
  if kinds.contains "placeholders".data then
    pushNew toks3 (placeholderScan (cb.2.length + 1) cb.2)
  else toks3

/-- Key normalization of `resolvePreserve`: trim, then lower-case. -/
def normKind (s : Chars) : Chars := (trimChars s).map Char.toLower

/-- `resolvePreserve` of `src/checks.ts`: unset or empty enables all four
categories, a (normalized) "none" entry disables everything, otherwise
the normalized listed categories are enabled. -/
def resolvePreserve : Option (List Chars) → List Chars
  | none => DEFAULT_PRESERVE
  | some [] => DEFAULT_PRESERVE
  | some (v :: vs) =>
    if (v :: vs).any (fun x => (normKind x = "none".data : Bool)) then []
    else (v :: vs).map normKind

/-- The collection loop of `validatePreserve`: gather tokens missing from
the output, stopping once five are collected. -/
def missingLoop (output : Chars) : List Chars → List Chars → List Chars
  | [], missing => missing
  | t :: rest, missing =>
    if containsSub output t then missingLoop output rest missing
    else if 5 ≤ (missing ++ [t]).length then missing ++ [t]
    else missingLoop output rest (missing ++ [t])

/-- `validatePreserve` of `src/checks.ts`: `none` on success, otherwise
the (at most five) missing tokens carried by the failure message. -/
def validatePreserve (output source : Chars) (kinds : List Chars) : Option (List Chars) :=
  let missing := missingLoop output (extractPreservables source kinds) []
  if missing.isEmpty then none else some missing

/-- The preserve phase of `validate` (`src/checks.ts`): runs only when
the resolved category set is non-empty. -/
def preservePhase (output source : Chars) (preserve : Option (List Chars)) : Option (List Chars) :=
  let kinds := resolvePreserve preserve
  if kinds.isEmpty then none else validatePreserve output source kinds

theorem missingLoop_extends (output : Chars) :
    ∀ (toks missing : List Chars), ∃ ext, missingLoop output toks missing = missing ++ ext := by
  intro toks
  induction toks with
  | nil => intro missing; exact ⟨[], by simp [missingLoop]⟩
  | cons t rest ih =>
    intro missing
    by_cases hc : containsSub output t = true
    · obtain ⟨ext, hext⟩ := ih missing
      exact ⟨ext, by rw [missingLoop, if_pos hc]; exact hext⟩
    · rw [Bool.not_eq_true] at hc
      by_cases hlen : 5 ≤ (missing ++ [t]).length
      · refine ⟨[t], ?_⟩
        rw [missingLoop, hc]
        simp only [Bool.false_eq_true, if_false]
        rw [if_pos hlen]
      · obtain ⟨ext, hext⟩ := ih (missing ++ [t])
        refine ⟨t :: ext, ?_⟩
        rw [missingLoop, hc]
        simp only [Bool.false_eq_true, if_false, if_neg hlen]
        rw [hext]
        simp

theorem missingLoop_length (output : Chars) :
    ∀ (toks missing : List Chars), missing.length ≤ 4 →
      (missingLoop output toks missing).length ≤ 5 := by
  intro toks
  induction toks with
  | nil => intro missing hlen; simpa [missingLoop] using Nat.le_trans hlen (by omega)
  | cons t rest ih =>
    intro missing hlen
    by_cases hc : containsSub output t = true
    · rw [missingLoop, if_pos hc]; exact ih missing hlen
    · rw [Bool.not_eq_true] at hc
      by_cases h5 : 5 ≤ (missing ++ [t]).length
      · rw [missingLoop, hc]
        simp only [Bool.false_eq_true, if_false, if_pos h5]
        simp only [List.length_append, List.length_cons, List.length_nil]
        omega
      · rw [missingLoop, hc]
        simp only [Bool.false_eq_true, if_false, if_neg h5]
        refine ih (missing ++ [t]) ?_
        simp only [List.length_append, List.length_cons, List.length_nil] at h5 ⊢
        omega

theorem missingLoop_sound (output : Chars) :
    ∀ (toks missing : List Chars), ∀ t ∈ missingLoop output toks missing,
      t ∈ missing ∨ (t ∈ toks ∧ containsSub output t = false) := by
  intro toks
  induction toks with
  | nil => intro missing t ht; exact Or.inl (by simpa [missingLoop] using ht)
  | cons t0 rest ih =>
    intro missing t ht
    by_cases hc : containsSub output t0 = true
    · rw [missingLoop, if_pos hc] at ht
      rcases ih missing t ht with h | h
      · exact Or.inl h
      · exact Or.inr ⟨List.mem_cons_of_mem t0 h.1, h.2⟩
    · rw [Bool.not_eq_true] at hc
      by_cases h5 : 5 ≤ (missing ++ [t]).length
      · rw [missingLoop, hc] at ht
        simp only [Bool.false_eq_true, if_false] at ht
        by_cases h5' : 5 ≤ (missing ++ [t0]).length
        · rw [if_pos h5'] at ht
          rcases List.mem_append.1 ht with h | h
          · exact Or.inl h
          · have h' : t = t0 := List.mem_singleton.1 h
            rw [h']
            exact Or.inr ⟨List.mem_cons_self t0 rest, hc⟩
        · rw [if_neg h5'] at ht
          rcases ih (missing ++ [t0]) t ht with h | h
          · rcases List.mem_append.1 h with h' | h'
            · exact Or.inl h'
            · have h2 : t = t0 := List.mem_singleton.1 h'
              rw [h2]
              exact Or.inr ⟨List.mem_cons_self t0 rest, hc⟩
          · exact Or.inr ⟨List.mem_cons_of_mem t0 h.1, h.2⟩
      · rw [missingLoop, hc] at ht
        simp only [Bool.false_eq_true, if_false] at ht
        by_cases h5' : 5 ≤ (missing ++ [t0]).length
        · rw [if_pos h5'] at ht
          rcases List.mem_append.1 ht with h | h
          · exact Or.inl h
          · have h' : t = t0 := List.mem_singleton.1 h
            rw [h']
            exact Or.inr ⟨List.mem_cons_self t0 rest, hc⟩
        · rw [if_neg h5'] at ht
          rcases ih (missing ++ [t0]) t ht with h | h
          · rcases List.mem_append.1 h with h' | h'
            · exact Or.inl h'
            · have h2 : t = t0 := List.mem_singleton.1 h'
              rw [h2]
              exact Or.inr ⟨List.mem_cons_self t0 rest, hc⟩
          · exact Or.inr ⟨List.mem_cons_of_mem t0 h.1, h.2⟩

theorem missingLoop_all_contained (output : Chars) :
    ∀ (toks missing : List Chars), (∀ t ∈ toks, containsSub output t = true) →
      missingLoop output toks missing = missing := by
  intro toks
  induction toks with
  | nil => intro missing _; rfl
  | cons t rest ih =>
    intro missing hall
    rw [missingLoop, if_pos (hall t (List.mem_cons_self t rest))]
    exact ih missing (fun t' ht' => hall t' (List.mem_cons_of_mem t ht'))

theorem missingLoop_nil_iff (output : Chars) (toks : List Chars) :
    missingLoop output toks [] = [] ↔ ∀ t ∈ toks, containsSub output t = true := by
  constructor
  · intro hz t ht
    by_contra hc
    rw [Bool.not_eq_true] at hc
    induction toks with
    | nil => cases ht
    | cons t0 rest ih =>
      rcases List.mem_cons.1 ht with rfl | hmem
      · by_cases hc0 : containsSub output t = true
        · rw [hc0] at hc; cases hc
        · rw [Bool.not_eq_true] at hc0
          rw [missingLoop, hc0] at hz
          simp only [Bool.false_eq_true, if_false, List.nil_append, List.length_cons,
            List.length_nil] at hz
          rw [if_neg (by omega)] at hz
          obtain ⟨ext, hext⟩ := missingLoop_extends output rest [t]
          rw [hext] at hz
          cases hz
      · by_cases hc0 : containsSub output t0 = true
        · rw [missingLoop, if_pos hc0] at hz
          exact ih hz hmem
        · rw [Bool.not_eq_true] at hc0
          rw [missingLoop, hc0] at hz
          simp only [Bool.false_eq_true, if_false, List.nil_append, List.length_cons,
            List.length_nil] at hz
          rw [if_neg (by omega)] at hz
          obtain ⟨ext, hext⟩ := missingLoop_extends output rest [t0]
          rw [hext] at hz
          cases hz
  · intro hall
    exact missingLoop_all_contained output toks [] hall

theorem validatePreserve_eq_none_iff (output source : Chars) (kinds : List Chars) :
    validatePreserve output source kinds = none ↔
      ∀ t ∈ extractPreservables source kinds, containsSub output t = true := by
  rw [validatePreserve]
  by_cases hz : missingLoop output (extractPreservables source kinds) [] = []
  · simp only [hz, List.isEmpty_nil, if_true, true_iff]
    exact (missingLoop_nil_iff output _).1 hz
  · have hne : (missingLoop output (extractPreservables source kinds) []).isEmpty = false := by
      cases hml : missingLoop output (extractPreservables source kinds) [] with
      | nil => exact absurd hml hz
      | cons a l => simp
    rw [if_neg (by simp [hne])]
    constructor
    · intro h; exact absurd h (by simp)
    · intro hall
      exact absurd ((missingLoop_nil_iff output _).2 hall) hz

theorem validatePreserve_some_spec (output source : Chars) (kinds : List Chars)
    (m : List Chars) (hm : validatePreserve output source kinds = some m) :
    m.length ≤ 5 ∧ m ≠ [] ∧
      ∀ t ∈ m, t ∈ extractPreservables source kinds ∧ containsSub output t = false := by
  rw [validatePreserve] at hm
  by_cases hz : (missingLoop output (extractPreservables source kinds) []).isEmpty = true
  · rw [if_pos hz] at hm; cases hm
  · rw [if_neg hz] at hm
    cases hm
    refine ⟨missingLoop_length output _ [] (by simp), ?_, ?_⟩
    · intro hc
      rw [hc] at hz
      exact hz rfl
    · intro t ht
      rcases missingLoop_sound output _ [] t ht with h | h
      · cases h
      · exact ⟨h.1, h.2⟩

/-- Claim C5: preserve-category resolution — unset or empty enables all
four categories; a trimmed, case-insensitive "none" entry disables the
check entirely; otherwise exactly the (normalized) listed categories are
enabled.  When the check runs, it succeeds exactly when every token
extracted from the source appears verbatim in the produced text, and on
failure it collects at most five missing tokens, all genuinely extracted
and genuinely absent, into the failure detail. -/
theorem c5_preserve_validation :
    (resolvePreserve none = DEFAULT_PRESERVE ∧ resolvePreserve (some []) = DEFAULT_PRESERVE) ∧
    (∀ l : List Chars, (∃ v ∈ l, normKind v = "none".data) →
      resolvePreserve (some l) = [] ∧
        ∀ output source : Chars, preservePhase output source (some l) = none) ∧
    (∀ (l : List Chars) (k : Chars), l ≠ [] → (∀ v ∈ l, normKind v ≠ "none".data) →
      (k ∈ resolvePreserve (some l) ↔ ∃ v ∈ l, normKind v = k)) ∧
    (∀ (output source : Chars) (kinds : List Chars),
      validatePreserve output source kinds = none ↔
        ∀ t ∈ extractPreservables source kinds, containsSub output t = true) ∧
    (∀ (output source : Chars) (kinds : List Chars) (m : List Chars),
      validatePreserve output source kinds = some m →
        m.length ≤ 5 ∧ m ≠ [] ∧
          ∀ t ∈ m, t ∈ extractPreservables source kinds ∧ containsSub output t = false) := by
  refine ⟨⟨rfl, rfl⟩, ?_, ?_, ?_, ?_⟩
  · rintro l ⟨v, hv, hnv⟩
    cases l with
    | nil => cases hv
    | cons v0 vs =>
      have hany : (v0 :: vs).any (fun x => (normKind x = "none".data : Bool)) = true := by
        rw [List.any_eq_true]
        exact ⟨v, hv, by simp [hnv]⟩
      have hres : resolvePreserve (some (v0 :: vs)) = [] := by
        rw [resolvePreserve, if_pos hany]
      refine ⟨hres, fun output source => ?_⟩
      rw [preservePhase, hres]
      rfl
  · intro l k hne hnone
    cases l with
    | nil => exact absurd rfl hne
    | cons v0 vs =>
      have hany : (v0 :: vs).any (fun x => (normKind x = "none".data : Bool)) = false := by
        rw [Bool.eq_false_iff]
        intro hc
        rw [List.any_eq_true] at hc
        obtain ⟨v, hv, hnv⟩ := hc
        exact hnone v hv (by simpa using hnv)
      rw [resolvePreserve, if_neg (by simp [hany])]
      constructor
      · intro hk
        obtain ⟨v, hv, hveq⟩ := List.mem_map.1 hk
        exact ⟨v, hv, hveq⟩
      · rintro ⟨v, hv, hveq⟩
        exact hveq ▸ List.mem_map_of_mem normKind hv
  · intro output source kinds
    exact validatePreserve_eq_none_iff output source kinds
  · intro output source kinds m hm
    exact validatePreserve_some_spec output source kinds m hm

/-- Witness for C5: a single "None" entry (case-insensitive) resolves to
no categories and disables the preserve phase. -/
theorem c5_preserve_validation_witness :
    resolvePreserve (some ["None".data]) = [] ∧
      preservePhase "hola".data "hello `x`".data (some ["None".data]) = none := by
  have h := c5_preserve_validation.2.1 ["None".data]
    ⟨"None".data, List.mem_singleton.2 rfl, by decide⟩
  exact ⟨h.1, h.2 "hola".data "hello `x`".data⟩

/-- Claim C6 counterexample: for the source `` `A```X```B` `` with the
default categories, removing the fenced block splices the surrounding
text into the inline-code token `` `AB` ``, which does not occur in the
source; so preserve validation fails even though the produced text is
exactly the source text. -/
theorem c6_counterexample :
    preservePhase "`A```X```B`".data "`A```X```B`".data none = some ["`AB`".data] := by
  decide

/-- Claim C6 as amended: if the produced text equals the source text,
preserve validation succeeds provided every token the extractor derives
from the source itself occurs in the source — which holds in particular
whenever fenced-code removal creates no new (seam) tokens; a token
spliced together by removing a fenced block can be absent from the
source, in which case validation fails even on identical texts. -/
theorem c6_identity_preserve (source : Chars) (kinds : List Chars)
    (hall : ∀ t ∈ extractPreservables source kinds, containsSub source t = true) :
    validatePreserve source source kinds = none :=
  (validatePreserve_eq_none_iff source source kinds).2 hall

/-- Witness for C6: a source whose extracted tokens (inline code and a
URL) all occur in it validates against itself. -/
theorem c6_identity_preserve_witness :
    validatePreserve "a `code` b https://x.y".data "a `code` b https://x.y".data
      DEFAULT_PRESERVE = none :=
  c6_identity_preserve "a `code` b https://x.y".data DEFAULT_PRESERVE (by decide)

/-- Claim C8: URL extraction on `<a href="https://example.org/x">` with
the urls category enabled yields exactly the token
`https://example.org/x`: the closing quote, angle bracket and anything
after them are excluded. -/
theorem c8_url_extraction :
    extractPreservables "<a href=\"https://example.org/x\">".data ["urls".data] =
      ["https://example.org/x".data] := by
  decide

-- ───────────────────────────── C9: PO syntax validation ──────────────

/-- The state variable of `validatePO` (`src/checks.ts`): the empty
string, "msgid", or "msgstr". -/
inductive POSt where
  | blank
  | msgid
  | msgstr
deriving DecidableEq, Repr

/-- `hasQuotedString` of `src/checks.ts`: count unescaped double quotes,
requiring at least two. -/
def hqsCount : Chars → Bool → Nat → Nat
  | [], _, n => n
  | c :: rest, escaped, n =>
    if c = bslash && !escaped then hqsCount rest true n
    else hqsCount rest false (if c = dquote && !escaped then n + 1 else n)

def hasQuotedString (line : Chars) : Bool :=
  2 ≤ hqsCount line false 0

/-- The line loop of `validatePO` (`src/checks.ts`): a small state
machine over trimmed lines, with the end-of-input check for an entry
left open. -/
def validatePOLines : List Chars → POSt → Bool → Bool → Option Chars
  | [], _, hasMsgid, hasMsgstr =>
    if hasMsgid && !hasMsgstr then some "po entry missing msgstr".data else none
  | rawLine :: rest, st, hasMsgid, hasMsgstr =>
    if (trimChars rawLine).isEmpty || (trimChars rawLine).headD ' ' = '#' then
      validatePOLines rest st hasMsgid hasMsgstr
    else if "msgid ".data.isPrefixOf (trimChars rawLine) then
      if hasMsgid && !hasMsgstr then some "po entry missing msgstr".data
      else if !(hasQuotedString (trimChars rawLine)) then
        some "po msgid missing quoted string".data
      else validatePOLines rest POSt.msgid true false
    else if "msgid_plural ".data.isPrefixOf (trimChars rawLine) then
      if !(st = POSt.msgid : Bool) then some "po msgid_plural without msgid".data
      else if !(hasQuotedString (trimChars rawLine)) then
        some "po msgid_plural missing quoted string".data
      else validatePOLines rest st hasMsgid hasMsgstr
    else if "msgstr".data.isPrefixOf (trimChars rawLine) then
      if !hasMsgid then some "po msgstr without msgid".data
      else if !(hasQuotedString (trimChars rawLine)) then
        some "po msgstr missing quoted string".data
      else validatePOLines rest POSt.msgstr hasMsgid true
    else if (trimChars rawLine).headD ' ' = dquote then
      if st = POSt.blank then some "po stray quoted string".data
      else validatePOLines rest st hasMsgid hasMsgstr
    else some ("po invalid line: ".data ++ trimChars rawLine)

/-- `validatePO` of `src/checks.ts`. -/
def validatePO (content : Chars) : Option Chars :=
  validatePOLines (splitOnChar '\n' content) POSt.blank false false

/-- Claim C9: every msgid line needs a following msgstr line before the
next entry begins — any document starting with two consecutive msgid
lines fails with the missing-value detail no matter what follows, and a
final msgid left open at end of input is also rejected with that
detail. -/
theorem c9_po_missing_msgstr :
    (∀ rest : List Chars,
      validatePOLines ("msgid \"a\"".data :: "msgid \"b\"".data :: rest)
          POSt.blank false false =
        some "po entry missing msgstr".data) ∧
      validatePO "msgid \"a\"".data = some "po entry missing msgstr".data := by
  constructor
  · intro rest
    rfl
  · rfl

-- ─────────────────────── C7: fenced-wrapper stripping ────────────────

/-- `stripCodeFence` of `src/agent.ts`: trim the text; if it starts with
the fence marker, has at least two lines, its first trimmed line starts
with the marker and its last trimmed line is exactly the marker, return
the middle lines joined; otherwise return the text unchanged. -/
def stripCodeFence (content : Chars) : Chars :=
  if !(fence.isPrefixOf (trimChars content)) then content
  else if (splitOnChar '\n' (trimChars content)).length < 2 then content
  else if !(fence.isPrefixOf (trimChars ((splitOnChar '\n' (trimChars content)).headD [])))
    then content
  else if !(trimChars ((splitOnChar '\n' (trimChars content)).getLastD []) = fence : Bool)
    then content
  else List.intercalate ['\n'] (((splitOnChar '\n' (trimChars content)).drop 1).dropLast)

theorem isPrefixOf_iff_append (p l : Chars) :
    p.isPrefixOf l = true ↔ ∃ t, l = p ++ t := by
  rw [List.isPrefixOf_iff_prefix]
  constructor
  · rintro ⟨t, rfl⟩
    exact ⟨t, rfl⟩
  · rintro ⟨t, rfl⟩
    exact ⟨t, rfl⟩

theorem isPrefixOf_takeWhile (pred : Char → Bool) :
    ∀ (p l : Chars), (∀ c ∈ p, pred c = true) → p.isPrefixOf l = true →
      p.isPrefixOf (l.takeWhile pred) = true := by
  intro p
  induction p with
  | nil => intro l _ _; simp [List.isPrefixOf]
  | cons c p ih =>
    intro l hp hpre
    cases l with
    | nil => simp [List.isPrefixOf] at hpre
    | cons d l' =>
      simp only [List.isPrefixOf, Bool.and_eq_true, beq_iff_eq] at hpre
      obtain ⟨rfl, hrest⟩ := hpre
      rw [List.takeWhile_cons, if_pos (hp c (List.mem_cons_self c p))]
      simp only [List.isPrefixOf, Bool.and_eq_true, beq_iff_eq]
      refine ⟨?_, ih l' (fun c' hc' => hp c' (List.mem_cons_of_mem c hc')) hrest⟩
      trivial

theorem dropWhile_all_false (pred : Char → Bool) :
    ∀ m : Chars, (∀ c ∈ m, pred c = false) → m.dropWhile pred = m := by
  intro m hm
  cases m with
  | nil => rfl
  | cons c m' =>
    rw [List.dropWhile_cons, if_neg (by simp [hm c (List.mem_cons_self c m')])]

theorem dropWhile_append_chars (pred : Char → Bool) :
    ∀ a b : Chars, (a ++ b).dropWhile pred =
      if (a.dropWhile pred).isEmpty then b.dropWhile pred else a.dropWhile pred ++ b := by
  intro a
  induction a with
  | nil => intro b; simp
  | cons c a' ih =>
    intro b
    by_cases hc : pred c = true
    · simp only [List.cons_append, List.dropWhile_cons, hc, if_true]
      exact ih b
    · rw [Bool.not_eq_true] at hc
      simp only [List.cons_append, List.dropWhile_cons, hc]
      simp

/-- Trimming from the right preserves a prefix made of non-whitespace
characters. -/
theorem isPrefixOf_trimRight (p l : Chars) (hp : ∀ c ∈ p, isWS c = false)
    (hpre : p.isPrefixOf l = true) :
    p.isPrefixOf ((l.reverse.dropWhile isWS).reverse) = true := by
  obtain ⟨t, rfl⟩ := (isPrefixOf_iff_append p l).1 hpre
  rw [List.reverse_append, dropWhile_append_chars isWS t.reverse p.reverse]
  by_cases he : (t.reverse.dropWhile isWS).isEmpty = true
  · rw [if_pos he]
    rw [dropWhile_all_false isWS p.reverse (fun c hc => hp c (List.mem_reverse.1 hc))]
    rw [List.reverse_reverse]
    exact (isPrefixOf_iff_append p p).2 ⟨[], by simp⟩
  · rw [if_neg he, List.reverse_append, List.reverse_reverse]
    exact (isPrefixOf_iff_append p _).2 ⟨(t.reverse.dropWhile isWS).reverse, rfl⟩

/-- If the trimmed text starts with the fence marker, so does its first
line after trimming — the fourth check of `stripCodeFence` is implied by
the first. -/
theorem fence_prefix_first_line (t : Chars) (h : fence.isPrefixOf t = true) :
    fence.isPrefixOf (trimChars ((splitOnChar '\n' t).headD [])) = true := by
  rw [splitOnChar_head]
  have hfence_chars : ∀ c ∈ fence, isWS c = false := by decide
  have hline : fence.isPrefixOf (t.takeWhile (fun c => !(c = '\n' : Bool))) = true :=
    isPrefixOf_takeWhile _ fence t (by decide) h
  obtain ⟨r, hr⟩ := (isPrefixOf_iff_append fence _).1 hline
  have hdrop : (fence ++ r).dropWhile isWS = fence ++ r := by
    rw [show fence ++ r = btick :: (btick :: btick :: r) from rfl, List.dropWhile_cons,
      if_neg (by decide)]
  rw [trimChars, hr, hdrop]
  exact isPrefixOf_trimRight fence (fence ++ r) hfence_chars
    ((isPrefixOf_iff_append fence _).2 ⟨r, rfl⟩)

/-- Claim C7 as amended: for structured formats the translator output is
stripped of one enclosing fenced wrapper exactly when the trimmed text
begins with the fence marker (so its first trimmed line begins with the
marker, not necessarily being exactly the bare marker), spans at least
two lines, and its last trimmed line is exactly the marker; in every
other case the text is returned unchanged. -/
theorem c7_strip_code_fence (content : Chars) :
    ((fence.isPrefixOf (trimChars content) = true ∧
        2 ≤ (splitOnChar '\n' (trimChars content)).length ∧
        trimChars ((splitOnChar '\n' (trimChars content)).getLastD []) = fence) →
      stripCodeFence content =
        List.intercalate ['\n'] (((splitOnChar '\n' (trimChars content)).drop 1).dropLast)) ∧
    (¬(fence.isPrefixOf (trimChars content) = true ∧
        2 ≤ (splitOnChar '\n' (trimChars content)).length ∧
        trimChars ((splitOnChar '\n' (trimChars content)).getLastD []) = fence) →
      stripCodeFence content = content) := by
  constructor
  · rintro ⟨h1, h2, h3⟩
    rw [stripCodeFence, if_neg (by simp only [h1]; decide), if_neg (by omega),
      if_neg (by simp only [fence_prefix_first_line (trimChars content) h1]; decide),
      if_neg (by simp only [h3]; decide)]
  · intro hn
    by_cases hA : fence.isPrefixOf (trimChars content) = true
    · by_cases hB : 2 ≤ (splitOnChar '\n' (trimChars content)).length
      · by_cases hC :
          trimChars ((splitOnChar '\n' (trimChars content)).getLastD []) = fence
        · exact absurd ⟨hA, hB, hC⟩ hn
        · rw [stripCodeFence, if_neg (by simp only [hA]; decide), if_neg (by omega),
            if_neg (by simp only [fence_prefix_first_line (trimChars content) hA]; decide),
            if_pos (by rw [decide_eq_false hC]; rfl)]
      · rw [stripCodeFence, if_neg (by simp only [hA]; decide), if_pos (by omega)]
    · rw [Bool.not_eq_true] at hA
      rw [stripCodeFence, if_pos (by simp only [hA]; decide)]

/-- Witness for C7: a wrapper whose opening line is exactly the bare
marker is stripped. -/
theorem c7_strip_code_fence_witness :
    stripCodeFence "```\nkey: value\n```".data = "key: value".data := by
  have h := (c7_strip_code_fence "```\nkey: value\n```".data).1 (by decide)
  rw [h]
  rfl

/-- Claim C7 counterexample: `stripCodeFence` strips a wrapper whose
first line is ```json — a first trimmed line merely beginning with the
marker, not equal to it — so stripping does not happen "only when the
first and last trimmed lines are exactly the fence marker". -/
theorem c7_counterexample :
    stripCodeFence "```json\nx: 1\n```".data = "x: 1".data ∧
      trimChars ((splitOnChar '\n'
        (trimChars "```json\nx: 1\n```".data)).headD []) ≠ fence ∧
      stripCodeFence "```json\nx: 1\n```".data ≠ "```json\nx: 1\n```".data := by
  refine ⟨by decide, by decide, by decide⟩

-- ───────────────────── C10: clean stays inside the root ──────────────

/-- POSIX path segments: split on `/` and drop empty segments (repeated
and leading/trailing slashes). -/
def splitPath (s : Chars) : List Chars :=
  (splitOnChar '/' s).filter (fun seg => !seg.isEmpty)

/-- Normalization stack of Node's `path.resolve` for an absolute path:
`.` disappears, `..` pops (and is dropped at the root). -/
def normSegs : List Chars → List Chars → List Chars
  | [], acc => acc.reverse
  | seg :: rest, acc =>
    if seg = ".".data then normSegs rest acc
    else if seg = "..".data then normSegs rest acc.tail
    else normSegs rest (seg :: acc)

/-- Node's `path.resolve` on an absolute input (also the composition
`resolve(join(a, b))` for absolute `a`): normalized segments joined under
a leading slash. -/
def resolveAbs (s : Chars) : Chars :=
  '/' :: List.intercalate ['/'] (normSegs (splitPath s) [])

/-- `resolveWithinRoot` of `src/app.ts`: reject empty paths; reject
`rel` when `resolve(rel) === rel` (an absolute path already in normal
form); resolve `rel` against the root and reject the result unless it is
the root itself or extends it across a `/` boundary.  `rootAbs` is the
already-resolved project root. -/
def resolveWithinRoot (rootAbs rel : Chars) : Except Chars Chars :=
  if (trimChars rel).isEmpty then Except.error "empty path".data
  else if rel.headD ' ' = '/' && (resolveAbs rel = rel : Bool) then
    Except.error "refusing to remove absolute path".data
  else if !(resolveAbs (rootAbs ++ '/' :: rel) = rootAbs : Bool) &&
      !((rootAbs ++ ['/']).isPrefixOf (resolveAbs (rootAbs ++ '/' :: rel))) then
    Except.error "refusing to remove path outside root".data
  else Except.ok (resolveAbs (rootAbs ++ '/' :: rel))

/-- The lock-file path of `src/locks.ts`:
`join(root, ".l10n", "locks", sourcePath + ".lock")`. -/
def lockPath (root sourcePath : Chars) : Chars :=
  root ++ '/' :: (".l10n/locks/".data ++ sourcePath ++ ".lock".data)

theorem splitOnChar_append (sep : Char) :
    ∀ a b : Chars, splitOnChar sep (a ++ sep :: b) = splitOnChar sep a ++ splitOnChar sep b := by
  intro a
  induction a with
  | nil => intro b; simp [splitOnChar]
  | cons c a' ih =>
    intro b
    by_cases hc : c = sep
    · simp only [List.cons_append, splitOnChar, if_pos hc, List.append_eq]
      rw [ih]
    · simp only [List.cons_append, splitOnChar, if_neg hc, List.append_eq]
      rw [ih]
      cases hsp : splitOnChar sep a' with
      | nil => exact absurd hsp (splitOnChar_ne_nil sep a')
      | cons g gs => simp

theorem splitPath_append (a b : Chars) :
    splitPath (a ++ '/' :: b) = splitPath a ++ splitPath b := by
  rw [splitPath, splitPath, splitPath, splitOnChar_append, List.filter_append]

/-- Claim C10 as amended: `resolveWithinRoot` rejects empty or
whitespace-only paths and rejects absolute paths already in normal form
(a non-normal absolute path such as `/a/../b` is instead joined under
the root); it rejects any path whose resolution leaves the root; and
every path it does return is the root itself or extends the root across
a `/` boundary, so the clean command's resolved removal targets never
lie outside the root.  Lock-file paths, which clean removes without
`resolveWithinRoot`, are built by joining under the root as well. -/
theorem c10_clean_path_safety (rootAbs rel : Chars) :
    ((trimChars rel).isEmpty = true →
      resolveWithinRoot rootAbs rel = Except.error "empty path".data) ∧
    ((trimChars rel).isEmpty = false → rel.headD ' ' = '/' → resolveAbs rel = rel →
      resolveWithinRoot rootAbs rel =
        Except.error "refusing to remove absolute path".data) ∧
    ((trimChars rel).isEmpty = false →
      ¬(rel.headD ' ' = '/' ∧ resolveAbs rel = rel) →
      ¬(resolveAbs (rootAbs ++ '/' :: rel) = rootAbs) →
      (rootAbs ++ ['/']).isPrefixOf (resolveAbs (rootAbs ++ '/' :: rel)) = false →
      resolveWithinRoot rootAbs rel =
        Except.error "refusing to remove path outside root".data) ∧
    (∀ pathAbs, resolveWithinRoot rootAbs rel = Except.ok pathAbs →
      pathAbs = rootAbs ∨
        ∃ tail, pathAbs = rootAbs ++ '/' :: tail ∧
          splitPath pathAbs = splitPath rootAbs ++ splitPath tail) ∧
    (∀ sourcePath : Chars, ∃ tail, lockPath rootAbs sourcePath = rootAbs ++ '/' :: tail) := by
  refine ⟨?_, ?_, ?_, ?_, ?_⟩
  · intro h
    rw [resolveWithinRoot, if_pos h]
  · intro hne hhead habs
    rw [resolveWithinRoot, if_neg (by simp [hne]),
      if_pos (by rw [decide_eq_true hhead, decide_eq_true habs]; rfl)]
  · intro hne hnabs hnroot hnpre
    rw [resolveWithinRoot, if_neg (by simp [hne]),
      if_neg (by
        simp only [Bool.and_eq_true, decide_eq_true_eq]
        intro hc
        exact hnabs hc),
      if_pos (by simp [hnroot, hnpre])]
  · intro pathAbs hok
    rw [resolveWithinRoot] at hok
    by_cases h1 : (trimChars rel).isEmpty = true
    · rw [if_pos h1] at hok; cases hok
    · rw [if_neg h1] at hok
      by_cases h2 : (rel.headD ' ' = '/' && (resolveAbs rel = rel : Bool)) = true
      · rw [if_pos h2] at hok; cases hok
      · rw [if_neg h2] at hok
        by_cases h3 : (!(resolveAbs (rootAbs ++ '/' :: rel) = rootAbs : Bool) &&
            !((rootAbs ++ ['/']).isPrefixOf (resolveAbs (rootAbs ++ '/' :: rel)))) = true
        · rw [if_pos h3] at hok; cases hok
        · rw [if_neg h3] at hok
          cases hok
          have hAB : resolveAbs (rootAbs ++ '/' :: rel) = rootAbs ∨
              (rootAbs ++ ['/']).isPrefixOf (resolveAbs (rootAbs ++ '/' :: rel)) = true := by
            by_contra hcon
            push_neg at hcon
            refine h3 ?_
            simp only [Bool.and_eq_true, Bool.not_eq_true']
            refine ⟨by simp [hcon.1], ?_⟩
            cases hb : (rootAbs ++ ['/']).isPrefixOf (resolveAbs (rootAbs ++ '/' :: rel)) with
            | false => rfl
            | true => exact absurd hb hcon.2
          rcases hAB with hA | hB
          · exact Or.inl hA
          · obtain ⟨tail, htail⟩ := (isPrefixOf_iff_append _ _).1 hB
            refine Or.inr ⟨tail, ?_, ?_⟩
            · rw [htail]; simp
            · rw [htail]
              have heq : rootAbs ++ ['/'] ++ tail = rootAbs ++ '/' :: tail := by simp
              rw [heq, splitPath_append]
  · intro sourcePath
    exact ⟨".l10n/locks/".data ++ sourcePath ++ ".lock".data, rfl⟩

/-- Witness for C10: a relative path resolves to a target strictly
inside the root. -/
theorem c10_clean_path_safety_witness :
    "/root/docs/a.md".data = "/root".data ∨
      ∃ tail, "/root/docs/a.md".data = "/root".data ++ '/' :: tail ∧
        splitPath "/root/docs/a.md".data = splitPath "/root".data ++ splitPath tail :=
  (c10_clean_path_safety "/root".data "docs/a.md".data).2.2.2.1
    "/root/docs/a.md".data (by rfl)

/-- Claim C10 counterexample: `/a/../b` is an absolute path, yet
`resolveWithinRoot` does not raise: `resolve("/a/../b")` is `/b`, which
differs from the raw string, so the absolute-path guard misses it and
the path is joined under the root and removed as `<root>/b`. -/
theorem c10_counterexample :
    resolveWithinRoot "/root".data "/a/../b".data = Except.ok "/root/b".data ∧
      "/a/../b".data.headD ' ' = '/' := by
  exact ⟨by rfl, by rfl⟩

end L10n
